import Mathlib

/-!
Verification development for the pathfinder Binary Merkle-Patricia Trie (BMPT)
storage engine and its two storage facades (`ContractsStorageTree`,
`StorageCommitmentTree`, in `crates/merkle-tree/src/contract.rs`), together
with the sequencer reply deserializer (`crates/pathfinder/src/sequencer/reply.rs`).

The facade source delegates to a `MerkleTree<PedersenHash, 251>` engine whose
source is not part of the fragment; the engine (node model, get, set, commit,
proofs) is modelled from the specification (spec.md sections 3, 4 and 6), with
keys as 251-bit MSB-first bit lists, values as field elements (0 = absent) and
an abstract binary hash function over the field.
-/

set_option maxRecDepth 100000

namespace Pathfinder

/-- The Starknet field modulus: hashes and values are field elements below it. -/
def PRIME : Nat := 2 ^ 251 + 17 * 2 ^ 192 + 1

/-- A trie key: a fixed-length (251 for both facades) bit sequence, MSB first. -/
abbrev Key := List Bool

/-- Modelled from the spec: the canonical in-memory node model of the BMPT
(spec section 3).  `leaf` carries a value, `binary` two children indexed by the
next key bit (`false` = left), `edge` is a path compression step whose bit path
`hd :: tl` is non-empty by construction (canonical form forbids zero-length
edges).  Empty subtrees are represented by absence (`Option TrieNode`), so a
`binary` node can never have an empty child. -/
inductive TrieNode where
  | leaf (value : Nat)
  | binary (left right : TrieNode)
  | edge (hd : Bool) (tl : List Bool) (child : TrieNode)
deriving Repr, DecidableEq

namespace TrieNode

/-- The MSB-first bit path interpreted as a field element (spec section 3). -/
def pathVal (p : List Bool) : Nat :=
  p.foldl (fun n b => 2 * n + (if b then 1 else 0)) 0

/-- Modelled from the spec: the structural hash of a node (spec section 3 hash
rules): `leaf v` hashes to `v`, `binary` to `H h_left h_right`, `edge` to
`H h_child path + length` with field addition of the path length. -/
def hashNode (H : Nat → Nat → Nat) : TrieNode → Nat
  | .leaf v => v
  | .binary l r => H (hashNode H l) (hashNode H r)
  | .edge q ps c => (H (hashNode H c) (pathVal (q :: ps)) + (q :: ps).length) % PRIME

/-- The root commitment: the hash of an absent tree is the zero element. -/
def rootHash (H : Nat → Nat → Nat) : Option TrieNode → Nat
  | none => 0
  | some t => hashNode H t

/-- Whether a node is an `edge` (canonical form forbids edge-of-edge). -/
def isEdge : TrieNode → Bool
  | .edge _ _ _ => true
  | _ => false

/-- Smart edge constructor performing the spec's re-canonicalization
(spec section 4.3 step 4): an empty path disappears and edge-over-edge paths
are merged. -/
def mkEdge (p : List Bool) (t : TrieNode) : TrieNode :=
  match p, t with
  | [], t => t
  | b :: bs, .edge q qs c => .edge b (bs ++ q :: qs) c
  | b :: bs, t => .edge b bs t

/-- The subtree denoted by an edge after its first path bit has been
consumed: the child when the path is a single bit, else the edge shortened by
one bit.  Only used to state lemmas about the bit-by-bit walk. -/
def edgeTail (ps : List Bool) (c : TrieNode) : TrieNode :=
  match ps with
  | [] => c
  | p' :: ps' => .edge p' ps' c

/-- Modelled from the spec: `get` descent (spec section 4.2).  At a `binary`
pick the child by the next key bit; at an `edge` the key must follow the path
bit by bit; a `leaf` answers once the key is exhausted. -/
def getNode : TrieNode → Key → Option Nat
  | .leaf v, [] => some v
  | .leaf _, _ :: _ => none
  | .binary _ _, [] => none
  | .binary _ r, true :: bs => getNode r bs
  | .binary l _, false :: bs => getNode l bs
  | .edge _ _ _, [] => none
  | .edge q ps c, b :: bs =>
      if b = q then
        match ps with
        | [] => getNode c bs
        | p' :: ps' => getNode (.edge p' ps' c) bs
      else none

/-- Modelled from the spec: insert / update with a non-zero value
(spec section 4.3).  Walking an `edge` consumes path bits one at a time; a
divergence splits the edge into a `binary` below the common part, and
`mkEdge` restores canonical form on the way up. -/
def insertNode (v : Nat) : TrieNode → Key → TrieNode
  | .leaf _, [] => .leaf v
  | .leaf _, b :: bs => mkEdge (b :: bs) (.leaf v)
  | .binary l r, [] => .binary l r
  | .binary l r, true :: bs => .binary l (insertNode v r bs)
  | .binary l r, false :: bs => .binary (insertNode v l bs) r
  | .edge q ps c, [] => .edge q ps c
  | .edge q ps c, b :: bs =>
      if b = q then
        mkEdge [q]
          (match ps with
           | [] => insertNode v c bs
           | p' :: ps' => insertNode v (.edge p' ps' c) bs)
      else
        let old := mkEdge ps c
        let fresh := mkEdge bs (.leaf v)
        if q then .binary fresh old else .binary old fresh

/-- Modelled from the spec: deletion (spec section 4.3, `value = 0` case).
Removing the leaf propagates emptiness upward; a `binary` losing a child
collapses into an edge over the surviving child and `mkEdge` merges edge
chains (the spec's collapse rule). -/
def deleteNode : TrieNode → Key → Option TrieNode
  | .leaf _, [] => none
  | .leaf w, _ :: _ => some (.leaf w)
  | .binary l r, [] => some (.binary l r)
  | .binary l r, true :: bs =>
      some (match deleteNode r bs with
        | none => mkEdge [false] l
        | some r' => .binary l r')
  | .binary l r, false :: bs =>
      some (match deleteNode l bs with
        | none => mkEdge [true] r
        | some l' => .binary l' r)
  | .edge q ps c, [] => some (.edge q ps c)
  | .edge q ps c, b :: bs =>
      if b = q then
        (match ps with
         | [] => deleteNode c bs
         | p' :: ps' => deleteNode (.edge p' ps' c) bs).map (mkEdge [q])
      else some (.edge q ps c)

end TrieNode

open TrieNode

/-- `get` lifted to possibly-empty tries. -/
def getOpt : Option TrieNode → Key → Option Nat
  | none, _ => none
  | some t, k => getNode t k

/-- Modelled from the spec: `set(key, value)` (spec section 4.3).  A zero
value is a delete, otherwise an insert / update; an insert into the empty trie
builds the terminating edge + leaf directly. -/
def setNode (t : Option TrieNode) (k : Key) (v : Nat) : Option TrieNode :=
  if v = 0 then
    match t with
    | none => none
    | some n => deleteNode n k
  else
    some (match t with
      | none => mkEdge k (.leaf v)
      | some n => insertNode v n k)

/-- Well-formedness of a subtree at `d` remaining key bits: leaves only at
depth 0 and never zero-valued, binaries consume a bit, edges have a path that
fits and a non-edge child.  Together with the representation invariants
(non-empty edge paths, no empty binary children) this is exactly the canonical
form of spec section 3. -/
def wfNode : Nat → TrieNode → Bool
  | d, .leaf v => d == 0 && v != 0
  | d, .binary l r => !(d == 0) && wfNode (d - 1) l && wfNode (d - 1) r
  | d, .edge _ ps c =>
      decide (ps.length + 1 ≤ d) && !isEdge c && wfNode (d - (ps.length + 1)) c

/-- Well-formedness of a possibly-empty trie. -/
def wfOpt (d : Nat) : Option TrieNode → Bool
  | none => true
  | some t => wfNode d t

/-- A sequence of `set` operations applied left to right (spec section 8,
property 1). -/
def applyOps (t : Option TrieNode) (us : List (Key × Nat)) : Option TrieNode :=
  us.foldl (fun acc u => setNode acc u.1 u.2) t

/-- The last value written for a key by a sequence of updates (the spec's
"collapsing duplicates to last-writer"), `none` when the key is never
written. -/
def lastWrite (us : List (Key × Nat)) (k : Key) : Option Nat :=
  us.foldl (fun acc u => if u.1 = k then some u.2 else acc) none

/-! ### Persistence: serialized nodes, the NodeStore, commit, lazy reload -/

/-- The public / persisted form of a node (spec sections 4.1 and 4.5): the
variant tag plus child hashes for `binary`, path bits and child hash for
`edge`, the value for `leaf`. -/
inductive PNode where
  | pbinary (lh rh : Nat)
  | pedge (path : List Bool) (child : Nat)
  | pleaf (v : Nat)
deriving Repr, DecidableEq, BEq

/-- Serialization of a node into its public form (spec section 4.1). -/
def serialize (H : Nat → Nat → Nat) : TrieNode → PNode
  | .leaf v => .pleaf v
  | .binary l r => .pbinary (hashNode H l) (hashNode H r)
  | .edge q ps c => .pedge (q :: ps) (hashNode H c)

/-- Modelled from the spec: the *added* map produced by `commit`
(spec section 4.4): every node of the committed tree keyed by its hash. -/
def addedOf (H : Nat → Nat → Nat) : TrieNode → List (Nat × PNode)
  | .leaf v => [(hashNode H (.leaf v), serialize H (.leaf v))]
  | .binary l r =>
      (hashNode H (.binary l r), serialize H (.binary l r)) :: (addedOf H l ++ addedOf H r)
  | .edge q ps c => (hashNode H (.edge q ps c), serialize H (.edge q ps c)) :: addedOf H c

/-- First-match lookup in an association list of persisted nodes (the
content-addressed row store of spec section 6.3). -/
def lookupStore : List (Nat × PNode) → Nat → Option PNode
  | [], _ => none
  | e :: rest, h => if e.1 = h then some e.2 else lookupStore rest h

/-- `matchPath p bits` strips path `p` off the front of `bits`, returning the
remaining key suffix, or `none` when the key diverges from the path. -/
def matchPath : List Bool → Key → Option Key
  | [], bits => some bits
  | _ :: _, [] => none
  | q :: ps, b :: bs => if b = q then matchPath ps bs else none

/-- Modelled from the spec: `get` on a freshly loaded trie, resolving each
node from the NodeStore by hash (spec sections 4.2 and 6.1).  A root hash of
zero denotes the empty trie; a referenced hash missing from the store, or a
node inconsistent with the remaining key depth, is `StorageCorruption`
(modelled as `Except.error`).  `fuel` bounds the descent (251 suffices). -/
def resolveGet (store : Nat → Option PNode) : Nat → Nat → Key → Except Unit (Option Nat)
  | 0, _, _ => .error ()
  | fuel + 1, h, bits =>
      if h = 0 then .ok none
      else
        match store h with
        | none => .error ()
        | some (.pleaf v) =>
            match bits with
            | [] => .ok (some v)
            | _ :: _ => .error ()
        | some (.pbinary lh rh) =>
            match bits with
            | [] => .error ()
            | b :: bs => resolveGet store fuel (if b then rh else lh) bs
        | some (.pedge p ch) =>
            match matchPath p bits with
            | some rest => resolveGet store fuel ch rest
            | none => .ok none

/-- Modelled from the spec: `get_proof` on a freshly loaded trie
(spec section 4.5), resolving nodes from the NodeStore: the list of public
binary / edge nodes on the descent, stopping at the leaf or at the edge whose
path diverges from the key.  A root hash of zero (empty trie) yields the empty
list. -/
def resolveProof (store : Nat → Option PNode) : Nat → Nat → Key → Except Unit (List PNode)
  | 0, _, _ => .error ()
  | fuel + 1, h, bits =>
      if h = 0 then .ok []
      else
        match store h with
        | none => .error ()
        | some (.pleaf _) => .ok []
        | some (.pbinary lh rh) =>
            match bits with
            | [] => .error ()
            | b :: bs =>
                (resolveProof store fuel (if b then rh else lh) bs).map
                  (fun rest => .pbinary lh rh :: rest)
        | some (.pedge p ch) =>
            match matchPath p bits with
            | some restBits =>
                (resolveProof store fuel ch restBits).map
                  (fun rest => .pedge p ch :: rest)
            | none => .ok [.pedge p ch]

/-- The store resolves every node of tree `t`: each subtree's hash is non-zero
and maps to that subtree's serialization.  This is what holds after a
successful commit (absent hash collisions among the added rows). -/
def storeOkB (H : Nat → Nat → Nat) (store : Nat → Option PNode) : TrieNode → Bool
  | .leaf v =>
      decide (hashNode H (.leaf v) ≠ 0) &&
      decide (store (hashNode H (.leaf v)) = some (serialize H (.leaf v)))
  | .binary l r =>
      decide (hashNode H (.binary l r) ≠ 0) &&
      decide (store (hashNode H (.binary l r)) = some (serialize H (.binary l r))) &&
      storeOkB H store l && storeOkB H store r
  | .edge q ps c =>
      decide (hashNode H (.edge q ps c) ≠ 0) &&
      decide (store (hashNode H (.edge q ps c)) = some (serialize H (.edge q ps c))) &&
      storeOkB H store c

/-- Modelled from the spec: `commit` (spec section 4.4): the new root hash
together with the *added* map of newly materialized nodes. -/
def commitTree (H : Nat → Nat → Nat) : Option TrieNode → Nat × List (Nat × PNode)
  | none => (0, [])
  | some n => (hashNode H n, addedOf H n)

/-- Hand each added entry to the NodeStore in order, stopping at the first
failure (the facade's persistence loop in `commit_and_persist_changes`). -/
def persistAll (ins : Nat → PNode → Except ε Unit) : List (Nat × PNode) → Except ε Unit
  | [] => .ok ()
  | e :: rest =>
      match ins e.1 e.2 with
      | .ok _ => persistAll ins rest
      | .error err => .error err

/-- Whether an `Except` is an error. -/
def isErr : Except ε α → Bool
  | .error _ => true
  | .ok _ => false

/-! ### Merkle proofs over the in-memory tree -/

/-- Modelled from the spec: `get_proof` over the in-memory tree
(spec section 4.5): the public nodes encountered on the descent to `key`,
root first, stopping at the leaf or at the edge that diverges from the key. -/
def proofOf (H : Nat → Nat → Nat) : TrieNode → Key → List PNode
  | .leaf _, _ => []
  | .binary l r, [] => [.pbinary (hashNode H l) (hashNode H r)]
  | .binary l r, true :: bs => .pbinary (hashNode H l) (hashNode H r) :: proofOf H r bs
  | .binary l r, false :: bs => .pbinary (hashNode H l) (hashNode H r) :: proofOf H l bs
  | .edge q ps c, bits =>
      .pedge (q :: ps) (hashNode H c) ::
        (match matchPath (q :: ps) bits with
         | some rest => proofOf H c rest
         | none => [])

/-- `get_proof` lifted to possibly-empty tries: the empty trie has the empty
proof. -/
def proofOpt (H : Nat → Nat → Nat) : Option TrieNode → Key → List PNode
  | none, _ => []
  | some t, k => proofOf H t k

/-- Modelled from the spec: proof verification (spec section 4.5).  The spec
phrases it as a reverse walk from `h = v` (or `h = 0` for absence) at depth
251 upward; this computes the same hash chain top-down: each node's hash rule
must reproduce the hash expected from above (the root for the first node, the
recorded child hash below an edge, the selected sibling below a binary), path
bits must match the remaining key suffix, and the terminal hash is the claimed
value (or zero / a diverging edge for absence). -/
def verifyChain (H : Nat → Nat → Nat) : Nat → Key → List PNode → Option Nat → Bool
  | r, bits, [], claim =>
      (match claim with
       | some v => r == v && bits.isEmpty
       | none => r == 0)
  | r, bits, .pbinary lh rh :: rest, claim =>
      r == H lh rh &&
      (match bits with
       | [] => false
       | b :: bs => verifyChain H (if b then rh else lh) bs rest claim)
  | r, bits, .pedge p ch :: rest, claim =>
      r == (H ch (pathVal p) + p.length) % PRIME &&
      (match matchPath p bits with
       | some restBits => verifyChain H ch restBits rest claim
       | none => rest.isEmpty && claim.isNone)
  | _, _, .pleaf _ :: _, _ => false

/-! ### The two storage facades (`crates/merkle-tree/src/contract.rs`) -/

/-- `pathfinder_common::ContractRoot`: the root of a per-contract storage
trie. -/
structure ContractRoot where
  root : Nat
deriving Repr, DecidableEq

/-- `pathfinder_common::StorageCommitment`: the root of the global commitment
trie. -/
structure StorageCommitment where
  root : Nat
deriving Repr, DecidableEq

/-- `pathfinder_common::StorageAddress`, seen through `view_bits()` as the
251-bit key. -/
structure StorageAddress where
  bits : Key
deriving Repr, DecidableEq

/-- `pathfinder_common::ContractAddress`, seen through `view_bits()` as the
251-bit key. -/
structure ContractAddress where
  bits : Key
deriving Repr, DecidableEq

/-- `pathfinder_common::StorageValue`: a storage value field element. -/
structure StorageValue where
  val : Nat
deriving Repr, DecidableEq

/-- `pathfinder_common::ContractStateHash`: a contract state hash field
element. -/
structure ContractStateHash where
  val : Nat
deriving Repr, DecidableEq

/-- `ContractsStorageTree`: the per-contract storage trie facade, wrapping a
`MerkleTree<PedersenHash, 251>` (persisted in table `tree_contracts`). -/
structure ContractsStorageTree where
  tree : Option TrieNode
deriving Repr, DecidableEq

/-- `StorageCommitmentTree`: the global commitment trie facade, wrapping a
`MerkleTree<PedersenHash, 251>` (persisted in table `tree_global`). -/
structure StorageCommitmentTree where
  tree : Option TrieNode
deriving Repr, DecidableEq

namespace ContractsStorageTree

/-- `ContractsStorageTree::get`: delegates to the tree and wraps the value. -/
def get (s : ContractsStorageTree) (address : StorageAddress) : Option StorageValue :=
  (getOpt s.tree address.bits).map StorageValue.mk

/-- `ContractsStorageTree::set`: delegates to the tree with the unwrapped
value. -/
def set (s : ContractsStorageTree) (address : StorageAddress) (value : StorageValue) :
    ContractsStorageTree :=
  ⟨setNode s.tree address.bits value.val⟩

/-- `ContractsStorageTree::get_proof`: delegates to the tree. -/
def getProof (H : Nat → Nat → Nat) (s : ContractsStorageTree) (key : Key) : List PNode :=
  proofOpt H s.tree key

/-- `ContractsStorageTree::commit_and_persist_changes`: commit, hand every
added entry to the `tree_contracts` store, and return the new wrapped root;
the first persistence failure aborts with the error. -/
def commitAndPersistChanges (H : Nat → Nat → Nat) (ins : Nat → PNode → Except ε Unit)
    (s : ContractsStorageTree) : Except ε ContractRoot :=
  let update := commitTree H s.tree
  match persistAll ins update.2 with
  | .ok _ => .ok ⟨update.1⟩
  | .error e => .error e

end ContractsStorageTree

namespace StorageCommitmentTree

/-- `StorageCommitmentTree::get`: delegates to the tree and wraps the value. -/
def get (s : StorageCommitmentTree) (address : ContractAddress) : Option ContractStateHash :=
  (getOpt s.tree address.bits).map ContractStateHash.mk

/-- `StorageCommitmentTree::set`: delegates to the tree with the unwrapped
value. -/
def set (s : StorageCommitmentTree) (address : ContractAddress) (value : ContractStateHash) :
    StorageCommitmentTree :=
  ⟨setNode s.tree address.bits value.val⟩

/-- `StorageCommitmentTree::get_proof`: delegates to the tree. -/
def getProof (H : Nat → Nat → Nat) (s : StorageCommitmentTree) (address : ContractAddress) :
    List PNode :=
  proofOpt H s.tree address.bits

/-- `StorageCommitmentTree::commit_and_persist_changes`: commit, hand every
added entry to the `tree_global` store, and return the new wrapped root; the
first persistence failure aborts with the error. -/
def commitAndPersistChanges (H : Nat → Nat → Nat) (ins : Nat → PNode → Except ε Unit)
    (s : StorageCommitmentTree) : Except ε StorageCommitment :=
  let update := commitTree H s.tree
  match persistAll ins update.2 with
  | .ok _ => .ok ⟨update.1⟩
  | .error e => .error e

end StorageCommitmentTree

/-- An abstract trie operation, used to compare the two facades. -/
inductive TrieOp where
  | opGet (k : Key)
  | opSet (k : Key) (v : Nat)
  | opProof (k : Key)
deriving Repr, DecidableEq

/-- An observation produced by one facade operation, with all domain newtypes
unwrapped. -/
inductive Obs where
  | oGet (v : Option Nat)
  | oSet
  | oProof (p : List PNode)
deriving Repr, DecidableEq

/-- Run a sequence of operations through the per-contract facade, collecting
unwrapped observations and the final facade state. -/
def runContracts (H : Nat → Nat → Nat) :
    ContractsStorageTree → List TrieOp → List Obs × ContractsStorageTree
  | s, [] => ([], s)
  | s, .opGet k :: ops =>
      let res := runContracts H s ops
      (.oGet ((s.get ⟨k⟩).map StorageValue.val) :: res.1, res.2)
  | s, .opSet k v :: ops =>
      let res := runContracts H (s.set ⟨k⟩ ⟨v⟩) ops
      (.oSet :: res.1, res.2)
  | s, .opProof k :: ops =>
      let res := runContracts H s ops
      (.oProof (s.getProof H k) :: res.1, res.2)

/-- Run a sequence of operations through the global commitment facade,
collecting unwrapped observations and the final facade state. -/
def runGlobal (H : Nat → Nat → Nat) :
    StorageCommitmentTree → List TrieOp → List Obs × StorageCommitmentTree
  | s, [] => ([], s)
  | s, .opGet k :: ops =>
      let res := runGlobal H s ops
      (.oGet ((s.get ⟨k⟩).map ContractStateHash.val) :: res.1, res.2)
  | s, .opSet k v :: ops =>
      let res := runGlobal H (s.set ⟨k⟩ ⟨v⟩) ops
      (.oSet :: res.1, res.2)
  | s, .opProof k :: ops =>
      let res := runGlobal H s ops
      (.oProof (s.getProof H ⟨k⟩) :: res.1, res.2)

/-- The canonical-form conditions of spec section 8 property 6 stated
recursively over a node: no edge has an edge child and the same holds in every
subtree.  (A binary node with an empty child and an edge with an empty path are
unrepresentable in this node type; `wfNode` additionally pins leaf depth and
non-zero leaf values.) -/
def canonicalForm : TrieNode → Bool
  | .leaf _ => true
  | .binary l r => canonicalForm l && canonicalForm r
  | .edge _ _ c => !isEdge c && canonicalForm c

/-! ### Sequencer reply deserialization (`crates/pathfinder/src/sequencer/reply.rs`) -/

/-- A JSON value, as seen by the reply deserializer. -/
inductive Json where
  | jnull
  | jbool (b : Bool)
  | jnum (n : Int)
  | jstr (s : String)
  | jarr (elems : List Json)
  | jobj (fields : List (String × Json))
deriving Repr

/-- `code::abi::Input`: a deserialized ABI input element (reply.rs). -/
structure AbiInput where
  name : String
  ty : String
deriving Repr, DecidableEq

/-- `code::abi::Member`: a deserialized ABI member element (reply.rs). -/
structure AbiMember where
  name : String
  offset : Nat
  ty : String
deriving Repr, DecidableEq

/-- `code::abi::Output`: a deserialized ABI output element (reply.rs). -/
structure AbiOutput where
  name : String
  ty : String
deriving Repr, DecidableEq

/-- `code::Abi`: one deserialized ABI element (reply.rs). -/
structure Abi where
  inputs : Option (List AbiInput)
  members : Option (List AbiMember)
  name : String
  outputs : Option (List AbiOutput)
  ty : String
  size : Option Nat
  stateMutability : Option String
deriving Repr, DecidableEq

/-- `Code`: the deserialized reply to the code endpoint (reply.rs), with
`bytecode` as the numeric values of the relaxed hex words. -/
structure Code where
  abi : List Abi
  bytecode : List Nat
deriving Repr, DecidableEq

/-- Look up a field of a JSON object (first occurrence). -/
def getField (fields : List (String × Json)) (k : String) : Option Json :=
  (fields.find? (fun f => f.1 == k)).map (fun f => f.2)

/-- A required field: missing means a deserialization error. -/
def reqField (fields : List (String × Json)) (k : String) : Except String Json :=
  match getField fields k with
  | some j => .ok j
  | none => .error "missing field"

/-- `deny_unknown_fields`: every present key must be an expected one. -/
def keysAllowed (fields : List (String × Json)) (allowed : List String) : Bool :=
  fields.all (fun f => allowed.contains f.1)

def decodeString : Json → Except String String
  | .jstr s => .ok s
  | _ => .error "expected string"

def decodeNat : Json → Except String Nat
  | .jnum n => if n < 0 then .error "expected unsigned" else .ok n.toNat
  | _ => .error "expected number"

/-- The value of one hex digit, or `none` for a non-hex character. -/
def hexDigitVal (c : Char) : Option Nat :=
  if '0' ≤ c ∧ c ≤ '9' then some (c.toNat - '0'.toNat)
  else if 'a' ≤ c ∧ c ≤ 'f' then some (c.toNat - 'a'.toNat + 10)
  else if 'A' ≤ c ∧ c ≤ 'F' then some (c.toNat - 'A'.toNat + 10)
  else none

def parseHexDigits : List Char → Nat → Option Nat
  | [], acc => some acc
  | c :: cs, acc =>
      match hexDigitVal c with
      | some d => parseHexDigits cs (16 * acc + d)
      | none => none

/-- `H256AsRelaxedHexStr`: a hex string, optionally `0x`-prefixed, of at most
64 digits (relaxed: shorter strings are zero-extended). -/
def decodeH256 (j : Json) : Except String Nat :=
  match j with
  | .jstr s =>
      let cs := match s.data with
        | '0' :: 'x' :: rest => rest
        | other => other
      if cs.length = 0 ∨ 64 < cs.length then .error "invalid hex length"
      else
        match parseHexDigits cs 0 with
        | some n => .ok n
        | none => .error "invalid hex digit"
  | _ => .error "expected hex string"

/-- Decode each element of a JSON list, failing on the first element error. -/
def decodeListWith (dec : Json → Except String α) : List Json → Except String (List α)
  | [] => .ok []
  | j :: js =>
      match dec j, decodeListWith dec js with
      | .ok x, .ok xs => .ok (x :: xs)
      | .error e, _ => .error e
      | _, .error e => .error e

/-- Decode a JSON array with the given element decoder. -/
def decodeArrWith (dec : Json → Except String α) : Json → Except String (List α)
  | .jarr xs => decodeListWith dec xs
  | _ => .error "expected array"

/-- An optional field: missing or `null` yields `none` (the serde behaviour of
the reply module's defaulted `Option` fields). -/
def decodeOptField (dec : Json → Except String α) (fields : List (String × Json))
    (k : String) : Except String (Option α) :=
  match getField fields k with
  | none => .ok none
  | some .jnull => .ok none
  | some j => (dec j).map some

def decodeAbiInput : Json → Except String AbiInput
  | .jobj fields =>
      if keysAllowed fields ["name", "type"] then
        match reqField fields "name", reqField fields "type" with
        | .ok jn, .ok jt =>
            match decodeString jn, decodeString jt with
            | .ok n, .ok t => .ok ⟨n, t⟩
            | .error e, _ => .error e
            | _, .error e => .error e
        | .error e, _ => .error e
        | _, .error e => .error e
      else .error "unknown field"
  | _ => .error "expected object"

def decodeAbiMember : Json → Except String AbiMember
  | .jobj fields =>
      if keysAllowed fields ["name", "offset", "type"] then
        match reqField fields "name", reqField fields "offset", reqField fields "type" with
        | .ok jn, .ok jo, .ok jt =>
            match decodeString jn, decodeNat jo, decodeString jt with
            | .ok n, .ok o, .ok t => .ok ⟨n, o, t⟩
            | .error e, _, _ => .error e
            | _, .error e, _ => .error e
            | _, _, .error e => .error e
        | .error e, _, _ => .error e
        | _, .error e, _ => .error e
        | _, _, .error e => .error e
      else .error "unknown field"
  | _ => .error "expected object"

def decodeAbiOutput : Json → Except String AbiOutput
  | .jobj fields =>
      if keysAllowed fields ["name", "type"] then
        match reqField fields "name", reqField fields "type" with
        | .ok jn, .ok jt =>
            match decodeString jn, decodeString jt with
            | .ok n, .ok t => .ok ⟨n, t⟩
            | .error e, _ => .error e
            | _, .error e => .error e
        | .error e, _ => .error e
        | _, .error e => .error e
      else .error "unknown field"
  | _ => .error "expected object"

/-- `code::Abi` deserialization: required `name` and `type` strings, optional
`inputs` / `members` / `outputs` lists, optional `size` and `stateMutability`,
rejecting unknown fields. -/
def decodeAbi : Json → Except String Abi
  | .jobj fields =>
      if keysAllowed fields
          ["inputs", "members", "name", "outputs", "type", "size", "stateMutability"] then do
        let n ← decodeString (← reqField fields "name")
        let t ← decodeString (← reqField fields "type")
        let ins ← decodeOptField (decodeArrWith decodeAbiInput) fields "inputs"
        let mems ← decodeOptField (decodeArrWith decodeAbiMember) fields "members"
        let outs ← decodeOptField (decodeArrWith decodeAbiOutput) fields "outputs"
        let sz ← decodeOptField decodeNat fields "size"
        let sm ← decodeOptField decodeString fields "stateMutability"
        pure ⟨ins, mems, n, outs, t, sz, sm⟩
      else .error "unknown field"
  | _ => .error "expected object"

/-- `Code` deserialization (reply.rs lines 79-89): `deny_unknown_fields`; the
`abi` field uses `serde_with::DefaultOnError` — when its value fails to parse
as an array of ABI elements (for example the JSON object returned for an
unknown block hash) the field falls back to the default empty vector instead
of failing; `bytecode` is an array of relaxed hex strings. -/
def decodeCode : Json → Except String Code
  | .jobj fields =>
      if keysAllowed fields ["abi", "bytecode"] then do
        let abiJ ← reqField fields "abi"
        let abi := match decodeArrWith decodeAbi abiJ with
          | .ok xs => xs
          | .error _ => []
        let bc ← decodeArrWith decodeH256 (← reqField fields "bytecode")
        pure ⟨abi, bc⟩
      else .error "unknown field"
  | _ => .error "expected object"

/-! ### Concrete data for end-to-end checks -/

/-- The all-zero 251-bit key. -/
def keyA : Key := List.replicate 251 false

/-- The 251-bit key with only the most significant bit set. -/
def keyB : Key := true :: List.replicate 250 false

/-- A small concrete stand-in hasher for evaluating the model on closed
inputs (the spec treats the hasher as an injected capability). -/
def testH : Nat → Nat → Nat := fun a b => 7 * a + 3 * b + 11

/-! ### Basic lemmas: the bit-by-bit walk, `mkEdge`, well-formedness -/

theorem mkEdge_nil (t : TrieNode) : mkEdge [] t = t := by
  cases t <;> rfl

theorem getNode_edge_cons (q : Bool) (ps : List Bool) (c : TrieNode) (b : Bool) (bs : Key) :
    getNode (.edge q ps c) (b :: bs) = if b = q then getNode (edgeTail ps c) bs else none := by
  cases ps <;> simp [getNode, edgeTail]

theorem getNode_edge_nil (q : Bool) (ps : List Bool) (c : TrieNode) :
    getNode (.edge q ps c) [] = none := by
  simp [getNode]

theorem getNode_mkEdge_cons (x : Bool) (xs : List Bool) (u : TrieNode) (b : Bool) (bs : Key) :
    getNode (mkEdge (x :: xs) u) (b :: bs) =
      if b = x then getNode (mkEdge xs u) bs else none := by
  cases u with
  | edge q qs c =>
      cases xs with
      | nil => simp [mkEdge, getNode_edge_cons, edgeTail]
      | cons x' xs' => simp [mkEdge, getNode_edge_cons, edgeTail]
  | leaf v =>
      cases xs <;> simp [mkEdge, getNode_edge_cons, edgeTail]
  | binary l r =>
      cases xs <;> simp [mkEdge, getNode_edge_cons, edgeTail]

theorem getNode_mkEdge_cons_nil (x : Bool) (xs : List Bool) (u : TrieNode) :
    getNode (mkEdge (x :: xs) u) [] = none := by
  cases u <;> simp [mkEdge, getNode]

theorem getNode_mkEdge_leaf (p : List Bool) (v : Nat) (bits : Key) :
    getNode (mkEdge p (.leaf v)) bits = if bits = p then some v else none := by
  induction p generalizing bits with
  | nil =>
      rw [mkEdge_nil]
      cases bits <;> simp [getNode]
  | cons x xs ih =>
      cases bits with
      | nil => simp [getNode_mkEdge_cons_nil]
      | cons b bs =>
          rw [getNode_mkEdge_cons, ih]
          by_cases hb : b = x <;> simp [hb]

theorem getNode_edge_follow (q : Bool) (ps : List Bool) (c : TrieNode) (r : Key) :
    getNode (.edge q ps c) (q :: (ps ++ r)) = getNode c r := by
  induction ps generalizing q with
  | nil => simp [getNode]
  | cons p' ps' ih => simpa [getNode] using ih p'

theorem getNode_edge_first_bit {q : Bool} {ps : List Bool} {c : TrieNode} {b : Bool} {bs : Key}
    {v : Nat} (h : getNode (.edge q ps c) (b :: bs) = some v) : b = q := by
  rw [getNode_edge_cons] at h
  by_cases hb : b = q
  · exact hb
  · simp [hb] at h

theorem wfNode_leaf {d v : Nat} : wfNode d (.leaf v) = true ↔ d = 0 ∧ v ≠ 0 := by
  simp [wfNode]

theorem wfNode_binary {d : Nat} {l r : TrieNode} :
    wfNode d (.binary l r) = true ↔
      d ≠ 0 ∧ wfNode (d - 1) l = true ∧ wfNode (d - 1) r = true := by
  simp [wfNode, and_assoc]

theorem wfNode_edge {d : Nat} {q : Bool} {ps : List Bool} {c : TrieNode} :
    wfNode d (.edge q ps c) = true ↔
      ps.length + 1 ≤ d ∧ isEdge c = false ∧ wfNode (d - (ps.length + 1)) c = true := by
  simp [wfNode, and_assoc]

theorem wfNode_edgeTail {d : Nat} {q : Bool} {ps : List Bool} {c : TrieNode}
    (h : wfNode d (.edge q ps c) = true) : wfNode (d - 1) (edgeTail ps c) = true := by
  rw [wfNode_edge] at h
  obtain ⟨hle, hc, hwf⟩ := h
  cases ps with
  | nil => simpa [edgeTail] using hwf
  | cons p' ps' =>
      rw [edgeTail, wfNode_edge]
      refine ⟨by simp at hle ⊢; omega, hc, ?_⟩
      have : d - 1 - (ps'.length + 1) = d - (ps'.length + 1 + 1) := by omega
      rw [this]
      simpa using hwf

theorem wfNode_mkEdge {d : Nat} {p : List Bool} {t : TrieNode}
    (hle : p.length ≤ d) (hwf : wfNode (d - p.length) t = true) :
    wfNode d (mkEdge p t) = true := by
  cases p with
  | nil => simpa using hwf
  | cons b bs =>
      cases t with
      | edge q qs c =>
          rw [wfNode_edge] at hwf
          obtain ⟨hle', hc, hwf'⟩ := hwf
          show wfNode d (.edge b (bs ++ q :: qs) c) = true
          rw [wfNode_edge]
          simp at hle hle' ⊢
          refine ⟨by omega, hc, ?_⟩
          have : d - (bs.length + (qs.length + 1) + 1) =
              d - (bs.length + 1) - (qs.length + 1) := by omega
          rw [this]
          exact hwf'
      | leaf v =>
          show wfNode d (.edge b bs (.leaf v)) = true
          rw [wfNode_edge]
          exact ⟨hle, rfl, hwf⟩
      | binary l r =>
          show wfNode d (.edge b bs (.binary l r)) = true
          rw [wfNode_edge]
          exact ⟨hle, rfl, hwf⟩

theorem exists_getNode_isSome {t : TrieNode} :
    ∀ {d : Nat}, wfNode d t = true →
      ∃ bits : Key, bits.length = d ∧ (getNode t bits).isSome = true := by
  induction t with
  | leaf v =>
      intro d h
      rw [wfNode_leaf] at h
      exact ⟨[], by simp [h.1], by simp [getNode]⟩
  | binary l r ihl ihr =>
      intro d h
      rw [wfNode_binary] at h
      obtain ⟨bits, hlen, hsome⟩ := ihl h.2.1
      refine ⟨false :: bits, by simp [hlen]; omega, ?_⟩
      simpa [getNode] using hsome
  | edge q ps c ih =>
      intro d h
      have hle := (wfNode_edge.mp h).1
      obtain ⟨bits, hlen, hsome⟩ := ih (wfNode_edge.mp h).2.2
      refine ⟨q :: (ps ++ bits), by simp [hlen]; omega, ?_⟩
      rw [getNode_edge_follow]
      exact hsome

theorem mkEdge_edgeTail {ps : List Bool} {c : TrieNode} (hc : isEdge c = false) :
    mkEdge ps c = edgeTail ps c := by
  cases ps with
  | nil => simp [mkEdge_nil, edgeTail]
  | cons p' ps' => cases c <;> simp_all [mkEdge, edgeTail, isEdge]

theorem getNode_binary_cons (l r : TrieNode) (b : Bool) (bs : Key) :
    getNode (.binary l r) (b :: bs) = getNode (if b then r else l) bs := by
  cases b <;> simp [getNode]

theorem insertNode_edge_cons (v : Nat) (q : Bool) (ps : List Bool) (c : TrieNode) (b : Bool)
    (bs : Key) :
    insertNode v (.edge q ps c) (b :: bs) =
      if b = q then mkEdge [q] (insertNode v (edgeTail ps c) bs)
      else if q then .binary (mkEdge bs (.leaf v)) (mkEdge ps c)
      else .binary (mkEdge ps c) (mkEdge bs (.leaf v)) := by
  cases ps <;> simp [insertNode, edgeTail]

theorem deleteNode_edge_cons (q : Bool) (ps : List Bool) (c : TrieNode) (b : Bool) (bs : Key) :
    deleteNode (.edge q ps c) (b :: bs) =
      if b = q then (deleteNode (edgeTail ps c) bs).map (mkEdge [q])
      else some (.edge q ps c) := by
  cases ps <;> simp [deleteNode, edgeTail]

theorem getNode_mkEdge_single (q : Bool) (u : TrieNode) (b : Bool) (bs : Key) :
    getNode (mkEdge [q] u) (b :: bs) = if b = q then getNode u bs else none := by
  rw [getNode_mkEdge_cons, mkEdge_nil]

/-! ### `get` after `set`, and preservation of canonical form -/

theorem getNode_insertNode (v : Nat) (k : Key) :
    ∀ (t : TrieNode) (d : Nat) (k' : Key), wfNode d t = true → k.length = d →
      k'.length = d →
      getNode (insertNode v t k) k' = if k' = k then some v else getNode t k' := by
  induction k with
  | nil =>
      intro t d k' hwf hk hk'
      have hd : d = 0 := by simpa using hk.symm
      subst hd
      have hk'nil : k' = [] := List.eq_nil_of_length_eq_zero hk'
      subst hk'nil
      cases t with
      | leaf w => simp [insertNode, getNode]
      | binary l r => rw [wfNode_binary] at hwf; exact absurd rfl hwf.1
      | edge q ps c => rw [wfNode_edge] at hwf; omega
  | cons b bs ih =>
      intro t d k' hwf hk hk'
      have hd : d = bs.length + 1 := by simpa using hk.symm
      subst hd
      cases k' with
      | nil => simp at hk'
      | cons b' bs' =>
          have hbs' : bs'.length = bs.length := by simpa using hk'
          cases t with
          | leaf w =>
              rw [wfNode_leaf] at hwf
              omega
          | binary l r =>
              rw [wfNode_binary] at hwf
              obtain ⟨-, hwl, hwr⟩ := hwf
              cases b with
              | true =>
                  cases b' with
                  | true =>
                      simp only [insertNode, getNode, List.cons.injEq, true_and]
                      rw [ih r (bs.length) bs' (by simpa using hwr) rfl hbs']
                  | false => simp [insertNode, getNode]
              | false =>
                  cases b' with
                  | true => simp [insertNode, getNode]
                  | false =>
                      simp only [insertNode, getNode, List.cons.injEq, true_and]
                      rw [ih l (bs.length) bs' (by simpa using hwl) rfl hbs']
          | edge q ps c =>
              have hct : wfNode (bs.length + 1 - 1) (edgeTail ps c) = true :=
                wfNode_edgeTail hwf
              simp only [Nat.add_sub_cancel] at hct
              have hc : isEdge c = false := (wfNode_edge.mp hwf).2.1
              rw [insertNode_edge_cons]
              by_cases hbq : b = q
              · subst hbq
                rw [if_pos rfl]
                rw [getNode_edge_cons]
                by_cases hb' : b' = b
                · subst hb'
                  rw [getNode_mkEdge_single, if_pos rfl, if_pos rfl]
                  rw [ih (edgeTail ps c) bs.length bs' hct rfl hbs']
                  simp
                · rw [getNode_mkEdge_single, if_neg hb', if_neg hb']
                  simp [hb']
              · rw [if_neg hbq, getNode_edge_cons]
                cases q with
                | true =>
                    have hb : b = false := by
                      cases b
                      · rfl
                      · exact absurd rfl hbq
                    subst hb
                    rw [if_pos rfl]
                    cases b' with
                    | true =>
                        rw [getNode_binary_cons]
                        rw [if_pos rfl]
                        rw [mkEdge_edgeTail hc]
                        simp
                    | false =>
                        rw [getNode_binary_cons]
                        rw [if_neg (by simp)]
                        rw [getNode_mkEdge_leaf]
                        simp
                | false =>
                    have hb : b = true := by
                      cases b
                      · exact absurd rfl hbq
                      · rfl
                    subst hb
                    rw [if_neg (by simp)]
                    cases b' with
                    | true =>
                        rw [getNode_binary_cons]
                        rw [if_pos rfl]
                        rw [getNode_mkEdge_leaf]
                        simp
                    | false =>
                        rw [getNode_binary_cons]
                        rw [if_neg (by simp)]
                        rw [mkEdge_edgeTail hc]
                        simp

theorem wfNode_insertNode (v : Nat) (k : Key) :
    ∀ (t : TrieNode) (d : Nat), wfNode d t = true → k.length = d → v ≠ 0 →
      wfNode d (insertNode v t k) = true := by
  induction k with
  | nil =>
      intro t d hwf hk hv
      have hd : d = 0 := by simpa using hk.symm
      subst hd
      cases t with
      | leaf w => simp [insertNode, wfNode_leaf, hv]
      | binary l r => rw [wfNode_binary] at hwf; exact absurd rfl hwf.1
      | edge q ps c => rw [wfNode_edge] at hwf; omega
  | cons b bs ih =>
      intro t d hwf hk hv
      have hd : d = bs.length + 1 := by simpa using hk.symm
      subst hd
      cases t with
      | leaf w => rw [wfNode_leaf] at hwf; omega
      | binary l r =>
          rw [wfNode_binary] at hwf
          obtain ⟨-, hwl, hwr⟩ := hwf
          cases b with
          | true =>
              show wfNode (bs.length + 1) (.binary l (insertNode v r bs)) = true
              rw [wfNode_binary]
              exact ⟨by omega, by simpa using hwl,
                by simpa using ih r bs.length (by simpa using hwr) rfl hv⟩
          | false =>
              show wfNode (bs.length + 1) (.binary (insertNode v l bs) r) = true
              rw [wfNode_binary]
              exact ⟨by omega, by simpa using ih l bs.length (by simpa using hwl) rfl hv,
                by simpa using hwr⟩
      | edge q ps c =>
          have hct : wfNode (bs.length + 1 - 1) (edgeTail ps c) = true := wfNode_edgeTail hwf
          simp only [Nat.add_sub_cancel] at hct
          rw [wfNode_edge] at hwf
          obtain ⟨hle, hc, hwc⟩ := hwf
          rw [insertNode_edge_cons]
          by_cases hbq : b = q
          · rw [if_pos hbq]
            apply wfNode_mkEdge (by simp)
            simpa using ih (edgeTail ps c) bs.length hct rfl hv
          · rw [if_neg hbq]
            have hold : wfNode bs.length (mkEdge ps c) = true := by
              apply wfNode_mkEdge (by omega)
              have : bs.length - ps.length = bs.length + 1 - (ps.length + 1) := by omega
              rw [this]
              exact hwc
            have hfresh : wfNode bs.length (mkEdge bs (.leaf v)) = true := by
              apply wfNode_mkEdge le_rfl
              rw [Nat.sub_self, wfNode_leaf]
              exact ⟨rfl, hv⟩
            cases q with
            | false =>
                rw [if_neg (by simp), wfNode_binary]
                exact ⟨by omega, by simpa using hold, by simpa using hfresh⟩
            | true =>
                rw [if_pos rfl, wfNode_binary]
                exact ⟨by omega, by simpa using hfresh, by simpa using hold⟩

theorem mkEdge_single_edgeTail {q : Bool} {ps : List Bool} {c : TrieNode}
    (hc : isEdge c = false) : mkEdge [q] (edgeTail ps c) = .edge q ps c := by
  cases ps with
  | nil => cases c <;> simp_all [mkEdge, edgeTail, isEdge]
  | cons p' ps' => simp [mkEdge, edgeTail]

theorem getOpt_deleteNode (k : Key) :
    ∀ (t : TrieNode) (d : Nat) (k' : Key), wfNode d t = true → k.length = d →
      k'.length = d →
      getOpt (deleteNode t k) k' = if k' = k then none else getNode t k' := by
  induction k with
  | nil =>
      intro t d k' hwf hk hk'
      have hd : d = 0 := by simpa using hk.symm
      subst hd
      have hk'nil : k' = [] := List.eq_nil_of_length_eq_zero hk'
      subst hk'nil
      cases t with
      | leaf w => simp [deleteNode, getOpt]
      | binary l r => rw [wfNode_binary] at hwf; exact absurd rfl hwf.1
      | edge q ps c => rw [wfNode_edge] at hwf; omega
  | cons b bs ih =>
      intro t d k' hwf hk hk'
      have hd : d = bs.length + 1 := by simpa using hk.symm
      subst hd
      cases k' with
      | nil => simp at hk'
      | cons b' bs' =>
          have hbs' : bs'.length = bs.length := by simpa using hk'
          cases t with
          | leaf w => rw [wfNode_leaf] at hwf; omega
          | binary l r =>
              rw [wfNode_binary] at hwf
              obtain ⟨-, hwl, hwr⟩ := hwf
              cases b with
              | true =>
                  have hIH := ih r bs.length bs' (by simpa using hwr) rfl hbs'
                  show getOpt (some (match deleteNode r bs with
                    | none => mkEdge [false] l
                    | some r' => .binary l r')) (b' :: bs') = _
                  cases hdel : deleteNode r bs with
                  | none =>
                      rw [hdel] at hIH
                      simp only [hdel, getOpt, getNode_mkEdge_single]
                      cases b' with
                      | true =>
                          simp only [getOpt] at hIH
                          by_cases hbs : bs' = bs
                          · simp [hbs]
                          · simp only [if_neg hbs] at hIH
                            simp [hbs, getNode_binary_cons, ← hIH]
                      | false => simp [getNode_binary_cons]
                  | some r' =>
                      rw [hdel] at hIH
                      simp only [hdel, getOpt]
                      cases b' with
                      | true =>
                          simp only [getOpt] at hIH
                          rw [getNode_binary_cons, getNode_binary_cons]
                          rw [if_pos rfl]
                          rw [hIH]
                          simp
                      | false =>
                          rw [getNode_binary_cons, getNode_binary_cons]
                          simp
              | false =>
                  have hIH := ih l bs.length bs' (by simpa using hwl) rfl hbs'
                  show getOpt (some (match deleteNode l bs with
                    | none => mkEdge [true] r
                    | some l' => .binary l' r)) (b' :: bs') = _
                  cases hdel : deleteNode l bs with
                  | none =>
                      rw [hdel] at hIH
                      simp only [hdel, getOpt, getNode_mkEdge_single]
                      cases b' with
                      | false =>
                          simp only [getOpt] at hIH
                          by_cases hbs : bs' = bs
                          · simp [hbs]
                          · simp only [if_neg hbs] at hIH
                            simp [hbs, getNode_binary_cons, ← hIH]
                      | true => simp [getNode_binary_cons]
                  | some l' =>
                      rw [hdel] at hIH
                      simp only [hdel, getOpt]
                      cases b' with
                      | false =>
                          simp only [getOpt] at hIH
                          rw [getNode_binary_cons, getNode_binary_cons]
                          rw [if_neg (by simp)]
                          rw [hIH]
                          simp
                      | true =>
                          rw [getNode_binary_cons, getNode_binary_cons]
                          simp
          | edge q ps c =>
              have hct : wfNode (bs.length + 1 - 1) (edgeTail ps c) = true :=
                wfNode_edgeTail hwf
              simp only [Nat.add_sub_cancel] at hct
              have hc : isEdge c = false := (wfNode_edge.mp hwf).2.1
              rw [deleteNode_edge_cons]
              by_cases hbq : b = q
              · subst hbq
                rw [if_pos rfl]
                have hIH := ih (edgeTail ps c) bs.length bs' hct rfl hbs'
                cases hdel : deleteNode (edgeTail ps c) bs with
                | none =>
                    rw [hdel] at hIH
                    simp only [getOpt] at hIH ⊢
                    simp only [Option.map_none']
                    rw [getNode_edge_cons]
                    by_cases hb' : b' = b
                    · subst hb'
                      rw [if_pos rfl]
                      by_cases hbs : bs' = bs
                      · simp [hbs]
                      · simp only [if_neg hbs] at hIH
                        simp [hbs, ← hIH]
                    · simp [hb']
                | some u =>
                    rw [hdel] at hIH
                    simp only [getOpt] at hIH ⊢
                    simp only [Option.map_some']
                    rw [getNode_mkEdge_single, getNode_edge_cons]
                    by_cases hb' : b' = b
                    · subst hb'
                      rw [if_pos rfl, if_pos rfl, hIH]
                      simp
                    · simp [hb']
              · rw [if_neg hbq]
                simp only [getOpt]
                by_cases hk'k : b' :: bs' = b :: bs
                · rw [if_pos hk'k, hk'k, getNode_edge_cons, if_neg hbq]
                · rw [if_neg hk'k]

theorem wfOpt_deleteNode (k : Key) :
    ∀ (t : TrieNode) (d : Nat), wfNode d t = true → k.length = d →
      wfOpt d (deleteNode t k) = true := by
  induction k with
  | nil =>
      intro t d hwf hk
      have hd : d = 0 := by simpa using hk.symm
      subst hd
      cases t with
      | leaf w => simp [deleteNode, wfOpt]
      | binary l r => rw [wfNode_binary] at hwf; exact absurd rfl hwf.1
      | edge q ps c => rw [wfNode_edge] at hwf; omega
  | cons b bs ih =>
      intro t d hwf hk
      have hd : d = bs.length + 1 := by simpa using hk.symm
      subst hd
      cases t with
      | leaf w => rw [wfNode_leaf] at hwf; omega
      | binary l r =>
          rw [wfNode_binary] at hwf
          obtain ⟨-, hwl, hwr⟩ := hwf
          cases b with
          | true =>
              have hIH := ih r bs.length (by simpa using hwr) rfl
              show wfOpt (bs.length + 1) (some (match deleteNode r bs with
                | none => mkEdge [false] l
                | some r' => .binary l r')) = true
              cases hdel : deleteNode r bs with
              | none =>
                  simp only [wfOpt]
                  apply wfNode_mkEdge (by simp)
                  simpa using hwl
              | some r' =>
                  rw [hdel] at hIH
                  simp only [wfOpt] at hIH ⊢
                  rw [wfNode_binary]
                  exact ⟨by omega, by simpa using hwl, by simpa using hIH⟩
          | false =>
              have hIH := ih l bs.length (by simpa using hwl) rfl
              show wfOpt (bs.length + 1) (some (match deleteNode l bs with
                | none => mkEdge [true] r
                | some l' => .binary l' r)) = true
              cases hdel : deleteNode l bs with
              | none =>
                  simp only [wfOpt]
                  apply wfNode_mkEdge (by simp)
                  simpa using hwr
              | some l' =>
                  rw [hdel] at hIH
                  simp only [wfOpt] at hIH ⊢
                  rw [wfNode_binary]
                  exact ⟨by omega, by simpa using hIH, by simpa using hwr⟩
      | edge q ps c =>
          have hct : wfNode (bs.length + 1 - 1) (edgeTail ps c) = true := wfNode_edgeTail hwf
          simp only [Nat.add_sub_cancel] at hct
          rw [deleteNode_edge_cons]
          by_cases hbq : b = q
          · rw [if_pos hbq]
            have hIH := ih (edgeTail ps c) bs.length hct rfl
            cases hdel : deleteNode (edgeTail ps c) bs with
            | none => simp [wfOpt]
            | some u =>
                rw [hdel] at hIH
                simp only [wfOpt] at hIH ⊢
                simp only [Option.map_some', wfOpt]
                apply wfNode_mkEdge (by simp)
                simpa using hIH
          · rw [if_neg hbq]
            simpa [wfOpt] using hwf

theorem deleteNode_absent (k : Key) :
    ∀ (t : TrieNode) (d : Nat), wfNode d t = true → k.length = d →
      getNode t k = none → deleteNode t k = some t := by
  induction k with
  | nil =>
      intro t d hwf hk habs
      have hd : d = 0 := by simpa using hk.symm
      subst hd
      cases t with
      | leaf w => simp [getNode] at habs
      | binary l r => rw [wfNode_binary] at hwf; exact absurd rfl hwf.1
      | edge q ps c => rw [wfNode_edge] at hwf; omega
  | cons b bs ih =>
      intro t d hwf hk habs
      have hd : d = bs.length + 1 := by simpa using hk.symm
      subst hd
      cases t with
      | leaf w => rw [wfNode_leaf] at hwf; omega
      | binary l r =>
          rw [wfNode_binary] at hwf
          obtain ⟨-, hwl, hwr⟩ := hwf
          cases b with
          | true =>
              rw [getNode_binary_cons] at habs
              rw [if_pos rfl] at habs
              have := ih r bs.length (by simpa using hwr) rfl habs
              show deleteNode (.binary l r) (true :: bs) = _
              simp [deleteNode, this]
          | false =>
              rw [getNode_binary_cons] at habs
              rw [if_neg (by simp)] at habs
              have := ih l bs.length (by simpa using hwl) rfl habs
              show deleteNode (.binary l r) (false :: bs) = _
              simp [deleteNode, this]
      | edge q ps c =>
          have hct : wfNode (bs.length + 1 - 1) (edgeTail ps c) = true := wfNode_edgeTail hwf
          simp only [Nat.add_sub_cancel] at hct
          have hc : isEdge c = false := (wfNode_edge.mp hwf).2.1
          rw [deleteNode_edge_cons]
          by_cases hbq : b = q
          · subst hbq
            rw [getNode_edge_cons, if_pos rfl] at habs
            rw [if_pos rfl, ih (edgeTail ps c) bs.length hct rfl habs]
            simp [mkEdge_single_edgeTail hc]
          · rw [if_neg hbq]

/-! ### Extensionality: a canonical tree is determined by its key→value map -/

theorem getNode_isSome_first_bit {q : Bool} {ps : List Bool} {c : TrieNode} {b : Bool}
    {bs : Key} (h : (getNode (.edge q ps c) (b :: bs)).isSome = true) : b = q := by
  obtain ⟨v, hv⟩ := Option.isSome_iff_exists.mp h
  exact getNode_edge_first_bit hv

theorem getNode_ext :
    ∀ (d : Nat) (t1 t2 : TrieNode), wfNode d t1 = true → wfNode d t2 = true →
      (∀ bits : Key, bits.length = d → getNode t1 bits = getNode t2 bits) → t1 = t2 := by
  intro d
  induction d using Nat.strong_induction_on with
  | _ d ih =>
      intro t1 t2 hw1 hw2 hget
      cases t1 with
      | leaf v1 =>
          have hd : d = 0 := (wfNode_leaf.mp hw1).1
          subst hd
          cases t2 with
          | leaf v2 =>
              have h := hget [] rfl
              simp only [getNode, Option.some.injEq] at h
              rw [h]
          | binary l2 r2 => rw [wfNode_binary] at hw2; exact absurd rfl hw2.1
          | edge q2 ps2 c2 => rw [wfNode_edge] at hw2; omega
      | binary l1 r1 =>
          have hd : d ≠ 0 := (wfNode_binary.mp hw1).1
          obtain ⟨-, hwl1, hwr1⟩ := wfNode_binary.mp hw1
          cases t2 with
          | leaf v2 => exact absurd (wfNode_leaf.mp hw2).1 hd
          | binary l2 r2 =>
              obtain ⟨-, hwl2, hwr2⟩ := wfNode_binary.mp hw2
              have hl : l1 = l2 := by
                apply ih (d - 1) (by omega) _ _ hwl1 hwl2
                intro bits hlen
                have h := hget (false :: bits) (by simp [hlen]; omega)
                rw [getNode_binary_cons, getNode_binary_cons] at h
                simpa using h
              have hr : r1 = r2 := by
                apply ih (d - 1) (by omega) _ _ hwr1 hwr2
                intro bits hlen
                have h := hget (true :: bits) (by simp [hlen]; omega)
                rw [getNode_binary_cons, getNode_binary_cons] at h
                simpa using h
              rw [hl, hr]
          | edge q2 ps2 c2 =>
              exfalso
              cases q2 with
              | true =>
                  obtain ⟨bits, hlen, hsome⟩ := exists_getNode_isSome (d := d - 1) hwl1
                  have hkey : (false :: bits).length = d := by simp [hlen]; omega
                  have h := hget (false :: bits) hkey
                  rw [getNode_edge_cons, if_neg (by simp)] at h
                  rw [getNode_binary_cons, if_neg (by simp)] at h
                  rw [h] at hsome
                  simp at hsome
              | false =>
                  obtain ⟨bits, hlen, hsome⟩ := exists_getNode_isSome (d := d - 1) hwr1
                  have hkey : (true :: bits).length = d := by simp [hlen]; omega
                  have h := hget (true :: bits) hkey
                  rw [getNode_edge_cons, if_neg (by simp)] at h
                  rw [getNode_binary_cons, if_pos rfl] at h
                  rw [h] at hsome
                  simp at hsome
      | edge q1 ps1 c1 =>
          have hd1 : ps1.length + 1 ≤ d := (wfNode_edge.mp hw1).1
          cases t2 with
          | leaf v2 => rw [wfNode_leaf] at hw2; omega
          | binary l2 r2 =>
              exfalso
              obtain ⟨-, hwl2, hwr2⟩ := wfNode_binary.mp hw2
              cases q1 with
              | true =>
                  obtain ⟨bits, hlen, hsome⟩ := exists_getNode_isSome (d := d - 1) hwl2
                  have hkey : (false :: bits).length = d := by simp [hlen]; omega
                  have h := hget (false :: bits) hkey
                  rw [getNode_edge_cons, if_neg (by simp)] at h
                  rw [getNode_binary_cons, if_neg (by simp)] at h
                  rw [← h] at hsome
                  simp at hsome
              | false =>
                  obtain ⟨bits, hlen, hsome⟩ := exists_getNode_isSome (d := d - 1) hwr2
                  have hkey : (true :: bits).length = d := by simp [hlen]; omega
                  have h := hget (true :: bits) hkey
                  rw [getNode_edge_cons, if_neg (by simp)] at h
                  rw [getNode_binary_cons, if_pos rfl] at h
                  rw [← h] at hsome
                  simp at hsome
          | edge q2 ps2 c2 =>
              have hd2 : ps2.length + 1 ≤ d := (wfNode_edge.mp hw2).1
              have hq : q1 = q2 := by
                by_contra hq
                obtain ⟨bits, hlen, hsome⟩ := exists_getNode_isSome hw1
                cases bits with
                | nil => rw [getNode_edge_nil] at hsome; simp at hsome
                | cons b bs =>
                    have hb1 : b = q1 := getNode_isSome_first_bit hsome
                    have h := hget (b :: bs) hlen
                    rw [h] at hsome
                    have hb2 : b = q2 := getNode_isSome_first_bit hsome
                    exact hq (hb1 ▸ hb2)
              subst hq
              have htail : edgeTail ps1 c1 = edgeTail ps2 c2 := by
                apply ih (d - 1) (by omega) _ _ (wfNode_edgeTail hw1) (wfNode_edgeTail hw2)
                intro bits hlen
                have h := hget (q1 :: bits) (by simp [hlen]; omega)
                rw [getNode_edge_cons, if_pos rfl, getNode_edge_cons, if_pos rfl] at h
                exact h
              have hc1 : isEdge c1 = false := (wfNode_edge.mp hw1).2.1
              have hc2 : isEdge c2 = false := (wfNode_edge.mp hw2).2.1
              cases ps1 with
              | nil =>
                  cases ps2 with
                  | nil => simp only [edgeTail] at htail; rw [htail]
                  | cons p2 ps2' =>
                      simp only [edgeTail] at htail
                      rw [htail] at hc1
                      simp [isEdge] at hc1
              | cons p1 ps1' =>
                  cases ps2 with
                  | nil =>
                      simp only [edgeTail] at htail
                      rw [← htail] at hc2
                      simp [isEdge] at hc2
                  | cons p2 ps2' =>
                      simp only [edgeTail, TrieNode.edge.injEq] at htail
                      obtain ⟨h1, h2, h3⟩ := htail
                      rw [h1, h2, h3]

theorem getOpt_ext {d : Nat} {t1 t2 : Option TrieNode} (hw1 : wfOpt d t1 = true)
    (hw2 : wfOpt d t2 = true)
    (hget : ∀ bits : Key, bits.length = d → getOpt t1 bits = getOpt t2 bits) : t1 = t2 := by
  cases t1 with
  | none =>
      cases t2 with
      | none => rfl
      | some n2 =>
          obtain ⟨bits, hlen, hsome⟩ := exists_getNode_isSome (by simpa [wfOpt] using hw2)
          have h := hget bits hlen
          simp only [getOpt] at h
          rw [← h] at hsome
          simp at hsome
  | some n1 =>
      cases t2 with
      | none =>
          obtain ⟨bits, hlen, hsome⟩ := exists_getNode_isSome (by simpa [wfOpt] using hw1)
          have h := hget bits hlen
          simp only [getOpt] at h
          rw [h] at hsome
          simp at hsome
      | some n2 =>
          have := getNode_ext d n1 n2 (by simpa [wfOpt] using hw1)
            (by simpa [wfOpt] using hw2) (fun bits hlen => hget bits hlen)
          rw [this]

/-! ### `set` on possibly-empty tries, sequences of updates -/

theorem getOpt_setNode {t : Option TrieNode} {k : Key} {v : Nat} {d : Nat} {k' : Key}
    (hwf : wfOpt d t = true) (hk : k.length = d) (hk' : k'.length = d) :
    getOpt (setNode t k v) k' =
      if k' = k then (if v = 0 then none else some v) else getOpt t k' := by
  by_cases hv : v = 0
  · subst hv
    cases t with
    | none =>
        show getOpt none k' = _
        simp [getOpt]
    | some n =>
        show getOpt (deleteNode n k) k' = _
        rw [getOpt_deleteNode k n d k' (by simpa [wfOpt] using hwf) hk hk']
        simp [getOpt]
  · cases t with
    | none =>
        simp only [setNode, if_neg hv]
        show getOpt (some (mkEdge k (.leaf v))) k' = _
        simp only [getOpt, getNode_mkEdge_leaf]
    | some n =>
        simp only [setNode, if_neg hv]
        show getOpt (some (insertNode v n k)) k' = _
        simp only [getOpt]
        rw [getNode_insertNode v k n d k' (by simpa [wfOpt] using hwf) hk hk']

theorem wfOpt_setNode {t : Option TrieNode} {k : Key} {v : Nat} {d : Nat}
    (hwf : wfOpt d t = true) (hk : k.length = d) :
    wfOpt d (setNode t k v) = true := by
  by_cases hv : v = 0
  · subst hv
    cases t with
    | none =>
        show wfOpt d none = true
        simp [wfOpt]
    | some n =>
        show wfOpt d (deleteNode n k) = true
        exact wfOpt_deleteNode k n d (by simpa [wfOpt] using hwf) hk
  · cases t with
    | none =>
        simp only [setNode, if_neg hv]
        show wfOpt d (some (mkEdge k (.leaf v))) = true
        simp only [wfOpt]
        apply wfNode_mkEdge (le_of_eq hk)
        rw [hk, Nat.sub_self, wfNode_leaf]
        exact ⟨rfl, hv⟩
    | some n =>
        simp only [setNode, if_neg hv]
        show wfOpt d (some (insertNode v n k)) = true
        simp only [wfOpt]
        exact wfNode_insertNode v k n d (by simpa [wfOpt] using hwf) hk hv

theorem lastWrite_aux (k : Key) (us : List (Key × Nat)) :
    ∀ a : Option Nat,
      us.foldl (fun acc u => if u.1 = k then some u.2 else acc) a =
        match lastWrite us k with
        | some v => some v
        | none => a := by
  induction us with
  | nil => intro a; simp [lastWrite]
  | cons u us ih =>
      intro a
      have hcons : lastWrite (u :: us) k =
          us.foldl (fun acc u => if u.1 = k then some u.2 else acc)
            (if u.1 = k then some u.2 else none) := by
        simp [lastWrite]
      rw [List.foldl_cons, ih, hcons, ih]
      cases hL : lastWrite us k with
      | some v => simp
      | none => by_cases hu : u.1 = k <;> simp [hu]

theorem lastWrite_cons (u : Key × Nat) (us : List (Key × Nat)) (k : Key) :
    lastWrite (u :: us) k =
      match lastWrite us k with
      | some v => some v
      | none => if u.1 = k then some u.2 else none := by
  have : lastWrite (u :: us) k =
      us.foldl (fun acc w => if w.1 = k then some w.2 else acc)
        (if u.1 = k then some u.2 else none) := by
    simp [lastWrite]
  rw [this, lastWrite_aux]

theorem applyOps_cons (t : Option TrieNode) (u : Key × Nat) (us : List (Key × Nat)) :
    applyOps t (u :: us) = applyOps (setNode t u.1 u.2) us := by
  simp [applyOps]

theorem wfOpt_applyOps (us : List (Key × Nat)) :
    ∀ (t : Option TrieNode) (d : Nat), wfOpt d t = true → (∀ u ∈ us, u.1.length = d) →
      wfOpt d (applyOps t us) = true := by
  induction us with
  | nil => intro t d hwf _; simpa [applyOps] using hwf
  | cons u us ih =>
      intro t d hwf hall
      rw [applyOps_cons]
      exact ih (setNode t u.1 u.2) d
        (wfOpt_setNode hwf (hall u (by simp)))
        (fun w hw => hall w (by simp [hw]))

theorem getOpt_applyOps (us : List (Key × Nat)) :
    ∀ (t : Option TrieNode) (d : Nat) (k : Key), wfOpt d t = true →
      (∀ u ∈ us, u.1.length = d) → k.length = d →
      getOpt (applyOps t us) k =
        match lastWrite us k with
        | some v => if v = 0 then none else some v
        | none => getOpt t k := by
  induction us with
  | nil => intro t d k _ _ _; simp [applyOps, lastWrite]
  | cons u us ih =>
      intro t d k hwf hall hk
      rw [applyOps_cons, lastWrite_cons]
      rw [ih (setNode t u.1 u.2) d k (wfOpt_setNode hwf (hall u (by simp)))
        (fun w hw => hall w (by simp [hw])) hk]
      cases hL : lastWrite us k with
      | some v => simp
      | none =>
          simp only []
          rw [getOpt_setNode hwf (hall u (by simp)) hk]
          by_cases hu : u.1 = k
          · rw [if_pos hu, if_pos (by rw [hu])]
          · rw [if_neg hu, if_neg (fun hc => hu hc.symm)]

theorem applyOps_congr {us1 us2 : List (Key × Nat)} {t : Option TrieNode} {d : Nat}
    (hwf : wfOpt d t = true) (h1 : ∀ u ∈ us1, u.1.length = d)
    (h2 : ∀ u ∈ us2, u.1.length = d)
    (hsame : ∀ k : Key, k.length = d → lastWrite us1 k = lastWrite us2 k) :
    applyOps t us1 = applyOps t us2 := by
  apply getOpt_ext (wfOpt_applyOps us1 t d hwf h1) (wfOpt_applyOps us2 t d hwf h2)
  intro bits hlen
  rw [getOpt_applyOps us1 t d bits hwf h1 hlen, getOpt_applyOps us2 t d bits hwf h2 hlen,
    hsame bits hlen]

/-! ### Lazy reload through the NodeStore, proof verification, persistence -/

theorem matchPath_some {p : List Bool} :
    ∀ {bits rest : Key}, matchPath p bits = some rest → bits = p ++ rest := by
  induction p with
  | nil =>
      intro bits rest h
      simp only [matchPath, Option.some.injEq] at h
      simp [h]
  | cons q ps ih =>
      intro bits rest h
      cases bits with
      | nil => simp [matchPath] at h
      | cons b bs =>
          simp only [matchPath] at h
          by_cases hb : b = q
          · rw [if_pos hb] at h
            rw [hb, List.cons_append, ← ih h]
          · rw [if_neg hb] at h
            exact absurd h (by simp)

theorem getNode_edge_matchPath (q : Bool) (ps : List Bool) (c : TrieNode) :
    ∀ bits : Key,
      getNode (.edge q ps c) bits =
        match matchPath (q :: ps) bits with
        | some rest => getNode c rest
        | none => none := by
  induction ps generalizing q with
  | nil =>
      intro bits
      cases bits with
      | nil => simp [getNode, matchPath]
      | cons b bs =>
          rw [getNode_edge_cons]
          simp only [edgeTail, matchPath]
          by_cases hb : b = q <;> simp [hb, matchPath]
  | cons p' ps' ih =>
      intro bits
      cases bits with
      | nil => simp [getNode, matchPath]
      | cons b bs =>
          rw [getNode_edge_cons]
          simp only [edgeTail]
          by_cases hb : b = q
          · rw [if_pos hb, ih p' bs]
            simp [matchPath, hb]
          · rw [if_neg hb]
            simp [matchPath, hb]

theorem resolveGet_eq_getNode (H : Nat → Nat → Nat) (store : Nat → Option PNode) :
    ∀ (t : TrieNode) (d : Nat) (bits : Key) (fuel : Nat), wfNode d t = true →
      bits.length = d → storeOkB H store t = true → d < fuel →
      resolveGet store fuel (hashNode H t) bits = .ok (getNode t bits) := by
  intro t
  induction t with
  | leaf v =>
      intro d bits fuel hwf hk hst hfuel
      obtain ⟨f, rfl⟩ : ∃ f, fuel = f + 1 := ⟨fuel - 1, by omega⟩
      have hd : d = 0 := (wfNode_leaf.mp hwf).1
      subst hd
      have hbits : bits = [] := List.eq_nil_of_length_eq_zero hk
      subst hbits
      simp only [storeOkB, Bool.and_eq_true, decide_eq_true_eq] at hst
      simp [resolveGet, hst.1, hst.2, serialize, getNode]
  | binary l r ihl ihr =>
      intro d bits fuel hwf hk hst hfuel
      obtain ⟨f, rfl⟩ : ∃ f, fuel = f + 1 := ⟨fuel - 1, by omega⟩
      obtain ⟨hd, hwl, hwr⟩ := wfNode_binary.mp hwf
      simp only [storeOkB, Bool.and_eq_true, decide_eq_true_eq] at hst
      obtain ⟨⟨⟨hnz, hlook⟩, hstl⟩, hstr⟩ := hst
      cases bits with
      | nil => exfalso; simp at hk; omega
      | cons b bs =>
          have hbs : bs.length = d - 1 := by simp at hk; omega
          simp only [resolveGet, if_neg hnz, hlook, serialize]
          rw [getNode_binary_cons]
          cases b
          · exact ihl (d - 1) bs f hwl hbs hstl (by omega)
          · exact ihr (d - 1) bs f hwr hbs hstr (by omega)
  | edge q ps c ih =>
      intro d bits fuel hwf hk hst hfuel
      obtain ⟨f, rfl⟩ : ∃ f, fuel = f + 1 := ⟨fuel - 1, by omega⟩
      obtain ⟨hle, hce, hwc⟩ := wfNode_edge.mp hwf
      simp only [storeOkB, Bool.and_eq_true, decide_eq_true_eq] at hst
      obtain ⟨⟨hnz, hlook⟩, hstc⟩ := hst
      simp only [resolveGet, if_neg hnz, hlook, serialize]
      rw [getNode_edge_matchPath]
      cases hm : matchPath (q :: ps) bits with
      | none => simp
      | some rest =>
          have hb := matchPath_some hm
          have hrest : rest.length = d - (ps.length + 1) := by
            rw [hb] at hk
            simp at hk
            omega
          simp only []
          exact ih (d - (ps.length + 1)) rest f hwc hrest hstc (by omega)

theorem verifyChain_proofOf (H : Nat → Nat → Nat) :
    ∀ (t : TrieNode) (d : Nat) (bits : Key), wfNode d t = true → bits.length = d →
      verifyChain H (hashNode H t) bits (proofOf H t bits) (getNode t bits) = true := by
  intro t
  induction t with
  | leaf v =>
      intro d bits hwf hk
      have hd : d = 0 := (wfNode_leaf.mp hwf).1
      subst hd
      have hbits : bits = [] := List.eq_nil_of_length_eq_zero hk
      subst hbits
      simp [proofOf, getNode, verifyChain, hashNode]
  | binary l r ihl ihr =>
      intro d bits hwf hk
      obtain ⟨hd, hwl, hwr⟩ := wfNode_binary.mp hwf
      cases bits with
      | nil => exfalso; simp at hk; omega
      | cons b bs =>
          have hbs : bs.length = d - 1 := by simp at hk; omega
          cases b
          · simp only [proofOf, getNode_binary_cons, verifyChain, hashNode,
              Bool.and_eq_true]
            refine ⟨by simp, ?_⟩
            simp only [if_true, if_false, Bool.false_eq_true]
            exact ihl (d - 1) bs hwl hbs
          · simp only [proofOf, getNode_binary_cons, verifyChain, hashNode,
              Bool.and_eq_true]
            refine ⟨by simp, ?_⟩
            simp only [if_true, if_false, Bool.false_eq_true]
            exact ihr (d - 1) bs hwr hbs
  | edge q ps c ih =>
      intro d bits hwf hk
      obtain ⟨hle, hce, hwc⟩ := wfNode_edge.mp hwf
      rw [getNode_edge_matchPath]
      simp only [proofOf, verifyChain, hashNode, Bool.and_eq_true]
      refine ⟨by simp, ?_⟩
      cases hm : matchPath (q :: ps) bits with
      | none => simp
      | some rest =>
          have hb := matchPath_some hm
          have hrest : rest.length = d - (ps.length + 1) := by
            rw [hb] at hk
            simp at hk
            omega
          simp only []
          exact ih (d - (ps.length + 1)) rest hwc hrest

theorem persistAll_error (ins : Nat → PNode → Except ε Unit) :
    ∀ (l : List (Nat × PNode)) (e : Nat × PNode), e ∈ l → isErr (ins e.1 e.2) = true →
      isErr (persistAll ins l) = true := by
  intro l
  induction l with
  | nil => intro e he; exact absurd he (by simp)
  | cons a rest ih =>
      intro e he herr
      simp only [persistAll]
      cases hins : ins a.1 a.2 with
      | error err => simp [isErr]
      | ok u =>
          rcases List.mem_cons.mp he with rfl | hmem
          · rw [hins] at herr
            simp [isErr] at herr
          · exact ih e hmem herr

theorem canonicalForm_of_wfNode :
    ∀ (t : TrieNode) (d : Nat), wfNode d t = true → canonicalForm t = true := by
  intro t
  induction t with
  | leaf v => intro d _; simp [canonicalForm]
  | binary l r ihl ihr =>
      intro d hwf
      obtain ⟨-, hwl, hwr⟩ := wfNode_binary.mp hwf
      simp only [canonicalForm, Bool.and_eq_true]
      exact ⟨ihl (d - 1) hwl, ihr (d - 1) hwr⟩
  | edge q ps c ih =>
      intro d hwf
      obtain ⟨-, hce, hwc⟩ := wfNode_edge.mp hwf
      simp only [canonicalForm, Bool.and_eq_true, Bool.not_eq_true']
      exact ⟨hce, ih (d - (ps.length + 1)) hwc⟩

/-! ### The two facades agree -/

theorem runs_agree (H : Nat → Nat → Nat) :
    ∀ (ops : List TrieOp) (t : Option TrieNode),
      (runContracts H ⟨t⟩ ops).1 = (runGlobal H ⟨t⟩ ops).1 ∧
      (runContracts H ⟨t⟩ ops).2.tree = (runGlobal H ⟨t⟩ ops).2.tree := by
  intro ops
  induction ops with
  | nil => intro t; exact ⟨rfl, rfl⟩
  | cons op ops ih =>
      intro t
      cases op with
      | opGet k =>
          obtain ⟨h1, h2⟩ := ih t
          refine ⟨?_, by simpa [runContracts, runGlobal] using h2⟩
          simp only [runContracts, runGlobal, List.cons.injEq]
          refine ⟨?_, h1⟩
          simp only [ContractsStorageTree.get, StorageCommitmentTree.get, Option.map_map]
          cases getOpt t k <;> rfl
      | opSet k v =>
          obtain ⟨h1, h2⟩ := ih (setNode t k v)
          have hc : ContractsStorageTree.set ⟨t⟩ ⟨k⟩ ⟨v⟩ =
              (⟨setNode t k v⟩ : ContractsStorageTree) := rfl
          have hg : StorageCommitmentTree.set ⟨t⟩ ⟨k⟩ ⟨v⟩ =
              (⟨setNode t k v⟩ : StorageCommitmentTree) := rfl
          refine ⟨?_, ?_⟩
          · simp only [runContracts, runGlobal, hc, hg, List.cons.injEq]
            exact ⟨by trivial, h1⟩
          · simp only [runContracts, runGlobal, hc, hg]
            exact h2
      | opProof k =>
          obtain ⟨h1, h2⟩ := ih t
          refine ⟨?_, by simpa [runContracts, runGlobal] using h2⟩
          simp only [runContracts, runGlobal, List.cons.injEq]
          refine ⟨?_, h1⟩
          rfl

theorem commit_roots_agree (H : Nat → Nat → Nat) (ins : Nat → PNode → Except ε Unit)
    (t : Option TrieNode) :
    (ContractsStorageTree.commitAndPersistChanges H ins ⟨t⟩).map ContractRoot.root =
      (StorageCommitmentTree.commitAndPersistChanges H ins ⟨t⟩).map StorageCommitment.root := by
  simp only [ContractsStorageTree.commitAndPersistChanges,
    StorageCommitmentTree.commitAndPersistChanges]
  cases persistAll ins (commitTree H t).2 with
  | ok u => rfl
  | error e => rfl

/-! ### The claims -/

/-- Claim C1: for every 251-bit key `k` and every non-zero value `v`,
performing `set(k, v)` on a (well-formed) trie facade, then
`commit_and_persist_changes` (which returns the new root `r`), then loading a
fresh facade from `r` and running `get(k)` against the persisted node store
yields `v`.  The store hypothesis says the persisted rows resolve the
committed tree (no hash collisions among its nodes and no zero node hash),
which is the spec's content-addressing assumption. -/
theorem claim_C1_roundtrip (H : Nat → Nat → Nat) (t : Option TrieNode) (k : Key) (v : Nat)
    (n' : TrieNode) (r : Nat) (ins : Nat → PNode → Except Unit Unit)
    (hwf : wfOpt 251 t = true) (hk : k.length = 251) (hv : v ≠ 0)
    (hset : setNode t k v = some n')
    (hcommit : ContractsStorageTree.commitAndPersistChanges H ins ⟨some n'⟩ = .ok ⟨r⟩)
    (hstore : storeOkB H (lookupStore (addedOf H n')) n' = true) :
    resolveGet (lookupStore (addedOf H n')) 252 r k = .ok (some v) := by
  have hr : r = hashNode H n' := by
    simp only [ContractsStorageTree.commitAndPersistChanges, commitTree] at hcommit
    cases hp : persistAll ins (addedOf H n') with
    | ok u =>
        rw [hp] at hcommit
        simp only [Except.ok.injEq, ContractRoot.mk.injEq] at hcommit
        exact hcommit.symm
    | error err =>
        rw [hp] at hcommit
        exact absurd hcommit (by simp)
  have hwf' : wfNode 251 n' = true := by
    have h := wfOpt_setNode (t := t) (k := k) (v := v) hwf hk
    rw [hset] at h
    simpa [wfOpt] using h
  have hget : getNode n' k = some v := by
    have h := @getOpt_setNode t k v 251 k hwf hk hk
    rw [hset, if_pos rfl, if_neg hv] at h
    simpa [getOpt] using h
  rw [hr,
    resolveGet_eq_getNode H (lookupStore (addedOf H n')) n' 251 k 252 hwf' hk hstore
      (by omega),
    hget]

theorem claim_C1_witness :
    wfOpt 251 (none : Option TrieNode) = true ∧ keyA.length = 251 ∧ (42 : Nat) ≠ 0 ∧
    setNode none keyA 42 = some (.edge false (List.replicate 250 false) (.leaf 42)) ∧
    ContractsStorageTree.commitAndPersistChanges testH
      (fun (_ : Nat) (_ : PNode) => (.ok () : Except Unit Unit))
      ⟨some (.edge false (List.replicate 250 false) (.leaf 42))⟩ = .ok ⟨556⟩ ∧
    storeOkB testH
      (lookupStore (addedOf testH (.edge false (List.replicate 250 false) (.leaf 42))))
      (.edge false (List.replicate 250 false) (.leaf 42)) = true ∧
    resolveGet (lookupStore (addedOf testH (.edge false (List.replicate 250 false) (.leaf 42))))
      252 556 keyA = .ok (some 42) :=
  ⟨rfl, rfl, by decide, rfl, rfl, by decide,
    claim_C1_roundtrip testH none keyA 42 (.edge false (List.replicate 250 false) (.leaf 42))
      556 (fun _ _ => .ok ()) rfl rfl (by decide) rfl rfl (by decide)⟩


/-- Claim C2: two update sequences over 251-bit keys with the same collapsed
(last-writer-wins) final key→value assignment, applied from the same
well-formed starting trie, commit to the identical root hash. -/
theorem claim_C2_root_determinism (H : Nat → Nat → Nat) (t : Option TrieNode)
    (us1 us2 : List (Key × Nat)) (hwf : wfOpt 251 t = true)
    (h1 : ∀ u ∈ us1, u.1.length = 251) (h2 : ∀ u ∈ us2, u.1.length = 251)
    (hsame : ∀ k : Key, k.length = 251 → lastWrite us1 k = lastWrite us2 k) :
    rootHash H (applyOps t us1) = rootHash H (applyOps t us2) := by
  rw [applyOps_congr hwf h1 h2 hsame]

theorem claim_C2_witness :
    wfOpt 251 (none : Option TrieNode) = true ∧
    (∀ u ∈ [(keyA, 1)], u.1.length = 251) ∧
    (∀ u ∈ [(keyA, 2), (keyA, 1)], u.1.length = 251) ∧
    (∀ k : Key, k.length = 251 →
      lastWrite [(keyA, 1)] k = lastWrite [(keyA, 2), (keyA, 1)] k) ∧
    rootHash testH (applyOps none [(keyA, 1)]) =
      rootHash testH (applyOps none [(keyA, 2), (keyA, 1)]) := by
  have hlen1 : ∀ u ∈ [(keyA, 1)], u.1.length = 251 := by
    intro u hu
    simp only [List.mem_singleton] at hu
    subst hu
    rfl
  have hlen2 : ∀ u ∈ [(keyA, 2), (keyA, 1)], u.1.length = 251 := by
    intro u hu
    simp only [List.mem_cons, List.not_mem_nil, or_false] at hu
    rcases hu with hu | hu <;> (subst hu; rfl)
  have hsame : ∀ k : Key, k.length = 251 →
      lastWrite [(keyA, 1)] k = lastWrite [(keyA, 2), (keyA, 1)] k := by
    intro k _
    by_cases h : keyA = k <;> simp [lastWrite, h]
  exact ⟨rfl, hlen1, hlen2, hsame,
    claim_C2_root_determinism testH none [(keyA, 1)] [(keyA, 2), (keyA, 1)] rfl hlen1 hlen2
      hsame⟩

/-- Claim C3: setting a key to zero is deletion: on a key that is absent,
`set(k, 0)` leaves the trie (hence the root) unchanged; and for any value `v`,
`set(k, v); set(k, 0)` restores exactly the trie (hence the root) that never
contained `k`. -/
theorem claim_C3_deletion (H : Nat → Nat → Nat) (t : Option TrieNode) (k : Key) (v : Nat)
    (hwf : wfOpt 251 t = true) (hk : k.length = 251) (habs : getOpt t k = none) :
    setNode t k 0 = t ∧ rootHash H (setNode t k 0) = rootHash H t ∧
    setNode (setNode t k v) k 0 = t ∧
    rootHash H (setNode (setNode t k v) k 0) = rootHash H t := by
  have h1 : setNode t k 0 = t := by
    cases t with
    | none => rfl
    | some n =>
        show deleteNode n k = some n
        exact deleteNode_absent k n 251 (by simpa [wfOpt] using hwf) hk
          (by simpa [getOpt] using habs)
  have h3 : setNode (setNode t k v) k 0 = t := by
    have hwf1 : wfOpt 251 (setNode t k v) = true := wfOpt_setNode hwf hk
    have hwf2 : wfOpt 251 (setNode (setNode t k v) k 0) = true := wfOpt_setNode hwf1 hk
    apply getOpt_ext hwf2 hwf
    intro bits hlen
    rw [getOpt_setNode hwf1 hk hlen]
    by_cases hb : bits = k
    · subst hb
      rw [if_pos rfl, habs]
      rfl
    · rw [if_neg hb, getOpt_setNode hwf hk hlen, if_neg hb]
  exact ⟨h1, by rw [h1], h3, by rw [h3]⟩

theorem claim_C3_witness :
    wfOpt 251 (some (.edge true (List.replicate 250 false) (.leaf 9)) :
      Option TrieNode) = true ∧
    keyA.length = 251 ∧
    getOpt (some (.edge true (List.replicate 250 false) (.leaf 9))) keyA = none ∧
    setNode (some (.edge true (List.replicate 250 false) (.leaf 9))) keyA 0 =
      some (.edge true (List.replicate 250 false) (.leaf 9)) ∧
    setNode (setNode (some (.edge true (List.replicate 250 false) (.leaf 9))) keyA 5)
        keyA 0 = some (.edge true (List.replicate 250 false) (.leaf 9)) :=
  ⟨by decide, rfl, by decide,
    (claim_C3_deletion testH (some (.edge true (List.replicate 250 false) (.leaf 9)))
      keyA 5 (by decide) rfl (by decide)).1,
    (claim_C3_deletion testH (some (.edge true (List.replicate 250 false) (.leaf 9)))
      keyA 5 (by decide) rfl (by decide)).2.2.1⟩

/-- Claim C4: every proof emitted by `get_proof` for a well-formed trie
verifies against the trie's root and the key via the section 4.5 hash-chain
verification, yielding exactly the value reported by `get` (or absence). -/
theorem claim_C4_proof_soundness (H : Nat → Nat → Nat) (t : Option TrieNode) (k : Key)
    (hwf : wfOpt 251 t = true) (hk : k.length = 251) :
    verifyChain H (rootHash H t) k (proofOpt H t k) (getOpt t k) = true := by
  cases t with
  | none => simp [rootHash, proofOpt, getOpt, verifyChain]
  | some n => exact verifyChain_proofOf H n 251 k (by simpa [wfOpt] using hwf) hk

theorem claim_C4_witness :
    wfOpt 251 (some (.binary (.edge false (List.replicate 249 false) (.leaf 1))
      (.edge false (List.replicate 249 false) (.leaf 2))) : Option TrieNode) = true ∧
    keyA.length = 251 ∧
    verifyChain testH
      (rootHash testH (some (.binary (.edge false (List.replicate 249 false) (.leaf 1))
        (.edge false (List.replicate 249 false) (.leaf 2)))))
      keyA
      (proofOpt testH (some (.binary (.edge false (List.replicate 249 false) (.leaf 1))
        (.edge false (List.replicate 249 false) (.leaf 2)))) keyA)
      (getOpt (some (.binary (.edge false (List.replicate 249 false) (.leaf 1))
        (.edge false (List.replicate 249 false) (.leaf 2)))) keyA) = true :=
  ⟨by decide, rfl,
    claim_C4_proof_soundness testH
      (some (.binary (.edge false (List.replicate 249 false) (.leaf 1))
        (.edge false (List.replicate 249 false) (.leaf 2)))) keyA (by decide) rfl⟩

/-- Claim C5: a root hash of zero denotes the empty trie: `get` through the
store answers absent for every key and `get_proof` yields the empty node
list, for any store contents; likewise the empty in-memory trie. -/
theorem claim_C5_zero_root_empty (H : Nat → Nat → Nat) (store : Nat → Option PNode)
    (k : Key) (fuel : Nat) :
    resolveGet store (fuel + 1) 0 k = .ok none ∧
    resolveProof store (fuel + 1) 0 k = .ok [] ∧
    getOpt none k = none ∧ proofOpt H none k = [] := by
  refine ⟨?_, ?_, rfl, rfl⟩ <;> simp [resolveGet, resolveProof]

/-- Claim C6: if the NodeStore insert of any entry of the added map fails,
`commit_and_persist_changes` returns an error: no new root reaches the
caller. -/
theorem claim_C6_persist_failure (H : Nat → Nat → Nat) (ins : Nat → PNode → Except ε Unit)
    (s : ContractsStorageTree)
    (h : ∃ e ∈ (commitTree H s.tree).2, isErr (ins e.1 e.2) = true) :
    isErr (ContractsStorageTree.commitAndPersistChanges H ins s) = true := by
  obtain ⟨e, hmem, herr⟩ := h
  have hall := persistAll_error ins (commitTree H s.tree).2 e hmem herr
  simp only [ContractsStorageTree.commitAndPersistChanges]
  cases hp : persistAll ins (commitTree H s.tree).2 with
  | ok u => rw [hp] at hall; simp [isErr] at hall
  | error err => simp [isErr]

theorem claim_C6_witness :
    (∃ e ∈ (commitTree testH (some (.leaf 7))).2,
      isErr ((fun (_ : Nat) (_ : PNode) => (.error () : Except Unit Unit)) e.1 e.2) = true) ∧
    isErr (ContractsStorageTree.commitAndPersistChanges testH
      (fun _ _ => .error ()) ⟨some (.leaf 7)⟩) = true :=
  ⟨by decide,
    claim_C6_persist_failure testH (fun _ _ => .error ()) ⟨some (.leaf 7)⟩ (by decide)⟩

/-- Claim C7: the two facades have identical semantics: any operation
sequence run through `ContractsStorageTree` and `StorageCommitmentTree`
produces the same unwrapped observations, the same underlying tree, and
`commit_and_persist_changes` returns the same unwrapped root (for the same
insert behaviour); they differ only in which table receives the rows. -/
theorem claim_C7_facades_equivalent (H : Nat → Nat → Nat) (ops : List TrieOp)
    (t : Option TrieNode) (ins : Nat → PNode → Except ε Unit) :
    (runContracts H ⟨t⟩ ops).1 = (runGlobal H ⟨t⟩ ops).1 ∧
    (runContracts H ⟨t⟩ ops).2.tree = (runGlobal H ⟨t⟩ ops).2.tree ∧
    (ContractsStorageTree.commitAndPersistChanges H ins (runContracts H ⟨t⟩ ops).2).map
        ContractRoot.root =
      (StorageCommitmentTree.commitAndPersistChanges H ins (runGlobal H ⟨t⟩ ops).2).map
        StorageCommitment.root := by
  obtain ⟨h1, h2⟩ := runs_agree H ops t
  refine ⟨h1, h2, ?_⟩
  have heq : (runContracts H ⟨t⟩ ops).2 =
      (⟨(runGlobal H ⟨t⟩ ops).2.tree⟩ : ContractsStorageTree) := by
    rw [← h2]
  rw [heq]
  exact commit_roots_agree H ins _

/-- Claim C8: canonical form is an invariant of `set`: after any `set` on a
well-formed trie the result is well-formed, and in the resulting in-memory
tree no edge carries an edge child (while empty binary children and
zero-length edge paths are unrepresentable in the node type). -/
theorem claim_C8_canonical (t : Option TrieNode) (k : Key) (v : Nat)
    (hwf : wfOpt 251 t = true) (hk : k.length = 251) :
    wfOpt 251 (setNode t k v) = true ∧
    ∀ n : TrieNode, setNode t k v = some n → canonicalForm n = true := by
  refine ⟨wfOpt_setNode hwf hk, ?_⟩
  intro n hset
  have h := wfOpt_setNode (t := t) (k := k) (v := v) hwf hk
  rw [hset] at h
  exact canonicalForm_of_wfNode n 251 (by simpa [wfOpt] using h)

theorem claim_C8_witness :
    wfOpt 251 (none : Option TrieNode) = true ∧ keyA.length = 251 ∧
    wfOpt 251 (setNode none keyA 1) = true ∧
    canonicalForm (.edge false (List.replicate 250 false) (.leaf 1)) = true :=
  ⟨rfl, rfl, (claim_C8_canonical none keyA 1 rfl rfl).1,
    (claim_C8_canonical none keyA 1 rfl rfl).2
      (.edge false (List.replicate 250 false) (.leaf 1)) rfl⟩

/-- Claim C9: the hash of an edge node with child hash `h_child` and path `p`
of length `ℓ` (1 ≤ ℓ ≤ 251) is `hash(h_child, p) + ℓ` with field addition of
the length; consequently the committed root of a single-key trie is
`hash(v, key) + 251` in the field. -/
theorem claim_C9_edge_hash (H : Nat → Nat → Nat) (q : Bool) (ps : List Bool) (c : TrieNode)
    (k : Key) (v : Nat) (h1 : 1 ≤ (q :: ps).length) (h2 : (q :: ps).length ≤ 251)
    (hk : k.length = 251) (hv : v ≠ 0) :
    hashNode H (.edge q ps c) =
      (H (hashNode H c) (pathVal (q :: ps)) + (q :: ps).length) % PRIME ∧
    rootHash H (setNode none k v) = (H v (pathVal k) + 251) % PRIME := by
  refine ⟨rfl, ?_⟩
  cases k with
  | nil => simp at hk
  | cons b bs =>
      have hbs : bs.length = 250 := by simpa using hk
      simp only [setNode, if_neg hv]
      show hashNode H (mkEdge (b :: bs) (.leaf v)) = _
      show hashNode H (.edge b bs (.leaf v)) = _
      simp [hashNode, hbs]

theorem claim_C9_witness :
    1 ≤ (false :: List.replicate 250 false).length ∧
    (false :: List.replicate 250 false).length ≤ 251 ∧
    keyA.length = 251 ∧ (42 : Nat) ≠ 0 ∧
    hashNode testH (.edge false (List.replicate 250 false) (.leaf 5)) =
      (testH (hashNode testH (.leaf 5)) (pathVal (false :: List.replicate 250 false)) +
        (false :: List.replicate 250 false).length) % PRIME ∧
    rootHash testH (setNode none keyA 42) = (testH 42 (pathVal keyA) + 251) % PRIME :=
  ⟨by decide, by decide, rfl, by decide,
    (claim_C9_edge_hash testH false (List.replicate 250 false) (.leaf 5) keyA 42
      (by decide) (by decide) rfl (by decide)).1,
    (claim_C9_edge_hash testH false (List.replicate 250 false) (.leaf 5) keyA 42
      (by decide) (by decide) rfl (by decide)).2⟩

/-- Claim C10: when deserializing a `Code` reply whose `abi` field is not a
valid JSON array of ABI objects (for example a JSON object, as returned for an
unknown block hash), deserialization still succeeds — `abi` falls back to the
empty vector (`DefaultOnError`) instead of surfacing the error — provided the
`bytecode` field parses. -/
theorem claim_C10_abi_default_on_error (abiJ bcJ : Json) (bs : List Nat) (e : String)
    (habi : decodeArrWith decodeAbi abiJ = .error e)
    (hbc : decodeArrWith decodeH256 bcJ = .ok bs) :
    decodeCode (.jobj [("abi", abiJ), ("bytecode", bcJ)]) = .ok ⟨[], bs⟩ := by
  have h1 : decodeCode (.jobj [("abi", abiJ), ("bytecode", bcJ)]) =
      (do
        let abi := match decodeArrWith decodeAbi abiJ with
          | .ok xs => xs
          | .error _ => []
        let bc ← decodeArrWith decodeH256 bcJ
        pure ⟨abi, bc⟩ : Except String Code) := rfl
  rw [h1, habi, hbc]
  rfl

theorem claim_C10_witness :
    decodeArrWith decodeAbi (.jobj []) = .error "expected array" ∧
    decodeArrWith decodeH256 (.jarr [.jstr "0x2a"]) = .ok [42] ∧
    decodeCode (.jobj [("abi", .jobj []), ("bytecode", .jarr [.jstr "0x2a"])]) =
      .ok ⟨[], [42]⟩ :=
  ⟨rfl, rfl, claim_C10_abi_default_on_error (.jobj []) (.jarr [.jstr "0x2a"]) [42]
    "expected array" rfl rfl⟩

end Pathfinder
